import Mathlib

/-!
Verification of the pitch-detection core of jh-piano-tuner (`src/tuner.js`).

The core consists of three components, embedded shallowly below:

* the signal gate: `computeRMS` and `getRmsThreshold` (tuner.js lines 67-78
  and 258-265);
* the YIN pitch estimator `yinPitch` (lines 271-327), operating on exact
  rational arithmetic.  JavaScript produces `NaN` when the cumulative mean
  normalization divides by a zero running sum; values that would be `NaN`
  are modelled as `none : Option ℚ`, and every comparison against such a
  value is `false`, exactly as `NaN` comparisons are in JavaScript;
* the note mapper `getNoteInfo` (lines 332-359), over the reals, with
  `Math.round` modelled by Mathlib's `round` (both send halves toward +∞)
  and `Math.log`/`Math.pow` by `Real.log` and real exponentiation.
-/

namespace Tuner

/-! ### The YIN pitch estimator (tuner.js lines 271-327) -/

/-- Line 273: `tauMax = Math.floor(buffer.length / 2)`. -/
def tauMax (buf : List ℚ) : ℕ := buf.length / 2

/-- A running for-loop sum: `sumTo f n = f 0 + f 1 + ... + f (n-1)`,
mirroring `for (let i = 0; i < n; i++) sum += f(i)`. -/
def sumTo (f : ℕ → ℚ) : ℕ → ℚ
  | 0 => 0
  | n + 1 => sumTo f n + f n

/-- Lines 279-286, the difference function: for lag `τ`,
`sum over i < tauMax of (buffer[i] - buffer[i+τ])^2`.  All indices accessed
are below `2 * (len/2) ≤ len`, so the `getD` default is never read. -/
def diffAt (buf : List ℚ) (τ : ℕ) : ℚ :=
  sumTo (fun i => (buf.getD i 0 - buf.getD (i + τ) 0) ^ 2) (tauMax buf)

/-- Lines 290-292, the running sum accumulated over `τ = 1, 2, ...`:
`runSum buf τ = diffAt buf 1 + ... + diffAt buf τ`. -/
def runSum (buf : List ℚ) : ℕ → ℚ
  | 0 => 0
  | τ + 1 => runSum buf τ + diffAt buf (τ + 1)

/-- Lines 288-293, the cumulative-mean-normalized difference buffer.
`yinBuffer[0] = 1`; for `τ ≥ 1`, `yinBuffer[τ] = diffAt τ * τ / runSum τ`.
When `runSum τ = 0` JavaScript computes `0 * (τ / 0) = 0 * Infinity = NaN`,
modelled as `none`. -/
def yinNorm (buf : List ℚ) (τ : ℕ) : Option ℚ :=
  if τ = 0 then some 1
  else if runSum buf τ = 0 then none
  else some (diffAt buf τ * τ / runSum buf τ)

/-- A JavaScript `<` comparison on possibly-NaN values: `NaN` compares
`false` with everything. -/
def optLt : Option ℚ → Option ℚ → Bool
  | some a, some b => decide (a < b)
  | _, _ => false

/-- Line 298, the absolute-threshold test `yinBuffer[tau] < threshold`
with `threshold = 0.15`; `false` for a NaN entry. -/
def belowB (buf : List ℚ) (τ : ℕ) : Bool :=
  match yinNorm buf τ with
  | some v => decide (v < (0.15 : ℚ))
  | none => false

/-- Lines 299-301, the descent `while (tau + 1 < tauMax &&
yinBuffer[tau + 1] < yinBuffer[tau]) tau++`.  The loop condition
`tau + 1 < tauMax` is tracked by the structural fuel: the caller passes
`fuel = tauMax - (τ + 1)`, which is positive exactly when `τ + 1 < tauMax`
and decreases by one as `τ` increases by one. -/
def descendAux (buf : List ℚ) : ℕ → ℕ → ℕ
  | 0, τ => τ
  | fuel + 1, τ =>
    if optLt (yinNorm buf (τ + 1)) (yinNorm buf τ) then descendAux buf fuel (τ + 1)
    else τ

/-- Lines 296-305, the scan `for (let tau = 2; tau < tauMax; tau++)`:
the first `τ` with `yinBuffer[τ] < 0.15` is descended to its local minimum.
The caller passes `fuel = tauMax - τ`, positive exactly when `τ < tauMax`. -/
def findDipAux (buf : List ℚ) (tm : ℕ) : ℕ → ℕ → Option ℕ
  | 0, _ => none
  | fuel + 1, τ =>
    if belowB buf τ then some (descendAux buf (tm - (τ + 1)) τ)
    else findDipAux buf tm fuel (τ + 1)

/-- Lines 296-309: `tauEstimate`, or `none` when the scan finds no lag
(in which case line 308 returns `-1`). -/
def yinTauEstimate (buf : List ℚ) : Option ℕ :=
  findDipAux buf (tauMax buf) (tauMax buf - 2) 2

/-- Lines 271-327, `yinPitch`.  After a lag is found, lines 311-326 read the
three normalized values at `x0`, `tauEstimate`, `x2` and refine the lag by
parabolic interpolation.  If any of the three values is NaN (`none`), the
JavaScript arithmetic yields a NaN frequency, rejected by line 322's
`!Number.isFinite(frequency)`.  If the interpolation denominator is `0`,
JavaScript produces `betterTau = ±Infinity` (frequency `±0`) or `NaN`, in
either case rejected by line 322; this is the first `-1` branch below.
Otherwise `frequency = sampleRate / betterTau` is a real number, returned
iff it is positive (line 322's `frequency <= 0` test; a zero `betterTau`
gives an infinite frequency in JavaScript and a `0` here, both rejected). -/
def yinPitch (buf : List ℚ) (sr : ℚ) : ℚ :=
  match yinTauEstimate buf with
  | none => -1
  | some τ =>
    match yinNorm buf (if τ < 1 then τ else τ - 1), yinNorm buf τ,
          yinNorm buf (if τ + 1 < tauMax buf then τ + 1 else τ) with
    | some s0, some s1, some s2 =>
      if 2 * (2 * s1 - s2 - s0) = 0 then -1
      else if sr / ((τ : ℚ) + (s2 - s0) / (2 * (2 * s1 - s2 - s0))) ≤ 0 then -1
      else sr / ((τ : ℚ) + (s2 - s0) / (2 * (2 * s1 - s2 - s0)))
    | _, _, _ => -1

/-! ### Basic facts about the difference function and the running sum -/

theorem sumTo_nonneg (f : ℕ → ℚ) (h : ∀ j, 0 ≤ f j) : ∀ n, 0 ≤ sumTo f n
  | 0 => le_refl 0
  | n + 1 => add_nonneg (sumTo_nonneg f h n) (h n)

theorem sumTo_eq_sum (f : ℕ → ℚ) : ∀ n, sumTo f n = ∑ i ∈ Finset.range n, f i
  | 0 => by simp [sumTo]
  | n + 1 => by rw [sumTo, sumTo_eq_sum f n, Finset.sum_range_succ]

theorem diffAt_nonneg (buf : List ℚ) (τ : ℕ) : 0 ≤ diffAt buf τ :=
  sumTo_nonneg _ (fun i => sq_nonneg _) _

theorem runSum_nonneg (buf : List ℚ) : ∀ τ, 0 ≤ runSum buf τ
  | 0 => le_refl 0
  | τ + 1 => add_nonneg (runSum_nonneg buf τ) (diffAt_nonneg buf (τ + 1))

theorem runSum_le_succ (buf : List ℚ) (τ : ℕ) : runSum buf τ ≤ runSum buf (τ + 1) :=
  le_add_of_nonneg_right (diffAt_nonneg buf (τ + 1))

theorem runSum_mono (buf : List ℚ) {τ τ' : ℕ} (h : τ ≤ τ') :
    runSum buf τ ≤ runSum buf τ' := by
  induction τ', h using Nat.le_induction with
  | base => exact le_refl _
  | succ n _ ih => exact le_trans ih (runSum_le_succ buf n)

theorem runSum_eq_sum (buf : List ℚ) : ∀ τ, runSum buf τ = ∑ j ∈ Finset.Icc 1 τ, diffAt buf j
  | 0 => by simp [runSum]
  | τ + 1 => by
    rw [runSum, runSum_eq_sum buf τ, Finset.sum_Icc_succ_top (Nat.le_add_left 1 τ)]

/-! ### Facts about the normalized difference buffer -/

theorem yinNorm_zero (buf : List ℚ) : yinNorm buf 0 = some 1 := rfl

theorem yinNorm_of_ne (buf : List ℚ) {τ : ℕ} (hτ : τ ≠ 0) (h : runSum buf τ ≠ 0) :
    yinNorm buf τ = some (diffAt buf τ * τ / runSum buf τ) := by
  simp [yinNorm, hτ, h]

theorem runSum_pos_of_some (buf : List ℚ) {τ : ℕ} {v : ℚ} (hτ : τ ≠ 0)
    (h : yinNorm buf τ = some v) : 0 < runSum buf τ := by
  rcases lt_or_eq_of_le (runSum_nonneg buf τ) with hp | hz
  · exact hp
  · exfalso
    simp [yinNorm, hτ, hz.symm] at h

theorem yinNorm_some_of_ne (buf : List ℚ) {τ : ℕ} (h : runSum buf τ ≠ 0) :
    ∃ v, yinNorm buf τ = some v := by
  rcases Nat.eq_zero_or_pos τ with h0 | h0
  · exact ⟨1, by simp [h0, yinNorm_zero]⟩
  · exact ⟨_, yinNorm_of_ne buf (Nat.pos_iff_ne_zero.mp h0) h⟩

theorem yinNorm_val (buf : List ℚ) {τ : ℕ} {v : ℚ} (hτ : τ ≠ 0)
    (h : yinNorm buf τ = some v) : v = diffAt buf τ * τ / runSum buf τ := by
  have hne : runSum buf τ ≠ 0 := ne_of_gt (runSum_pos_of_some buf hτ h)
  rw [yinNorm_of_ne buf hτ hne] at h
  exact (Option.some_inj.mp h).symm

/-! ### Facts about the threshold test -/

theorem belowB_iff (buf : List ℚ) (τ : ℕ) :
    belowB buf τ = true ↔ ∃ v, yinNorm buf τ = some v ∧ v < (0.15 : ℚ) := by
  unfold belowB
  rcases h : yinNorm buf τ with _ | v
  · simp
  · simp

theorem belowB_eq_false_iff (buf : List ℚ) (τ : ℕ) :
    belowB buf τ = false ↔ ¬∃ v, yinNorm buf τ = some v ∧ v < (0.15 : ℚ) := by
  rw [← belowB_iff, Bool.not_eq_true, Bool.eq_false_iff, ne_eq, Bool.not_eq_true]

/-- If the value at a lag `τ ≥ 1` is below the threshold, the running sum at
`τ - 1` cannot be zero: a zero running sum through `τ - 1` forces
`runSum τ = diffAt τ`, so the normalized value is `τ ≥ 1 > 0.15`. -/
theorem runSum_pred_ne_of_below (buf : List ℚ) {τ : ℕ} (hτ : 1 ≤ τ)
    (h : belowB buf τ = true) : runSum buf (τ - 1) ≠ 0 := by
  rcases (belowB_iff buf τ).mp h with ⟨v, hv, hlt⟩
  intro h0
  have hτ0 : τ ≠ 0 := by omega
  have hrs : runSum buf τ = diffAt buf τ := by
    have hsucc : τ - 1 + 1 = τ := by omega
    have := runSum buf τ
    calc runSum buf τ = runSum buf (τ - 1 + 1) := by rw [hsucc]
    _ = runSum buf (τ - 1) + diffAt buf (τ - 1 + 1) := rfl
    _ = diffAt buf τ := by rw [h0, hsucc, zero_add]
  have hd : diffAt buf τ ≠ 0 := by
    intro hd0
    exact absurd (by rw [hrs, hd0]) (ne_of_gt (runSum_pos_of_some buf hτ0 hv))
  have hval : v = (τ : ℚ) := by
    rw [yinNorm_val buf hτ0 hv, hrs, mul_comm, mul_div_assoc, div_self hd, mul_one]
  have : (1 : ℚ) ≤ (τ : ℚ) := by exact_mod_cast hτ
  rw [hval] at hlt
  norm_num at hlt
  linarith

/-- At the first below-threshold lag `τ`, the previous entry is a genuine
(non-NaN) value strictly above the value at `τ`: it is `1` when `τ = 2`
(the running sum through lag 1 is `diffAt 1`), and at least the `0.15`
threshold otherwise. -/
theorem prev_gt_of_first (buf : List ℚ) {τ : ℕ} (hτ : 2 ≤ τ)
    (hb : belowB buf τ = true) (hfirst : τ = 2 ∨ belowB buf (τ - 1) = false) :
    ∃ v u, yinNorm buf τ = some v ∧ v < (0.15 : ℚ) ∧
      yinNorm buf (τ - 1) = some u ∧ v < u := by
  rcases (belowB_iff buf τ).mp hb with ⟨v, hv, hlt⟩
  have hpre : runSum buf (τ - 1) ≠ 0 := runSum_pred_ne_of_below buf (by omega) hb
  rcases hfirst with h2 | hf
  · subst h2
    have h1 : runSum buf 1 = diffAt buf 1 := by
      show runSum buf 0 + diffAt buf 1 = diffAt buf 1
      rw [show runSum buf 0 = 0 from rfl, zero_add]
    have hd : diffAt buf 1 ≠ 0 := by rw [← h1]; exact hpre
    refine ⟨v, 1, hv, hlt, ?_, by linarith⟩
    have hpre1 : runSum buf 1 ≠ 0 := by simpa using hpre
    show yinNorm buf 1 = some 1
    rw [yinNorm_of_ne buf one_ne_zero hpre1, h1]
    norm_num [div_self hd]
  · rcases yinNorm_some_of_ne buf hpre with ⟨u, hu⟩
    have hge : ¬(u < (0.15 : ℚ)) := by
      intro hbad
      exact absurd ((belowB_iff buf (τ - 1)).mpr ⟨u, hu, hbad⟩) (by simp [hf])
    exact ⟨v, u, hv, hlt, hu, lt_of_lt_of_le hlt (not_lt.mp hge)⟩

/-! ### Facts about the descent loop (lines 299-301) -/

theorem optLt_eq_true_iff (a b : Option ℚ) :
    optLt a b = true ↔ ∃ x y, a = some x ∧ b = some y ∧ x < y := by
  rcases a with _ | x <;> rcases b with _ | y <;> simp [optLt]

/-- The invariant carried down the descent: the current lag is at least 2,
its entry is a genuine value below the threshold, and the previous entry is
a genuine value strictly above it. -/
def DipInv (buf : List ℚ) (τ : ℕ) : Prop :=
  2 ≤ τ ∧ ∃ v u, yinNorm buf τ = some v ∧ v < (0.15 : ℚ) ∧
    yinNorm buf (τ - 1) = some u ∧ v < u

theorem descendAux_dipInv (buf : List ℚ) :
    ∀ fuel τ, DipInv buf τ → DipInv buf (descendAux buf fuel τ)
  | 0, τ, h => h
  | fuel + 1, τ, h => by
    rcases h with ⟨hτ, v, u, hv, hlt, hu, hvu⟩
    by_cases hc : optLt (yinNorm buf (τ + 1)) (yinNorm buf τ) = true
    · rw [show descendAux buf (fuel + 1) τ = descendAux buf fuel (τ + 1) by
        simp [descendAux, hc]]
      rcases (optLt_eq_true_iff _ _).mp hc with ⟨x, y, hx, hy, hxy⟩
      have hyv : y = v := by rw [hv] at hy; exact (Option.some_inj.mp hy).symm
      exact descendAux_dipInv buf fuel (τ + 1)
        ⟨by omega, x, v, hx, by rw [hyv] at hxy; exact lt_trans hxy hlt,
          by simpa using hv, by rwa [hyv] at hxy⟩
    · rw [show descendAux buf (fuel + 1) τ = τ by simp [descendAux, hc]]
      exact ⟨hτ, v, u, hv, hlt, hu, hvu⟩

theorem descendAux_ge (buf : List ℚ) :
    ∀ fuel τ, τ ≤ descendAux buf fuel τ
  | 0, τ => le_refl τ
  | fuel + 1, τ => by
    by_cases hc : optLt (yinNorm buf (τ + 1)) (yinNorm buf τ) = true
    · rw [show descendAux buf (fuel + 1) τ = descendAux buf fuel (τ + 1) by
        simp [descendAux, hc]]
      exact le_trans (Nat.le_succ τ) (descendAux_ge buf fuel (τ + 1))
    · rw [show descendAux buf (fuel + 1) τ = τ by simp [descendAux, hc]]

theorem descendAux_le (buf : List ℚ) :
    ∀ fuel τ, descendAux buf fuel τ ≤ τ + fuel
  | 0, τ => le_refl τ
  | fuel + 1, τ => by
    by_cases hc : optLt (yinNorm buf (τ + 1)) (yinNorm buf τ) = true
    · rw [show descendAux buf (fuel + 1) τ = descendAux buf fuel (τ + 1) by
        simp [descendAux, hc]]
      exact le_trans (descendAux_le buf fuel (τ + 1)) (by omega)
    · rw [show descendAux buf (fuel + 1) τ = τ by simp [descendAux, hc]]
      omega

/-- When the descent stops before exhausting its fuel (that is, before the
`tau + 1 < tauMax` bound is hit), the loop condition
`yinBuffer[tau + 1] < yinBuffer[tau]` is false at the final lag. -/
theorem descendAux_stop (buf : List ℚ) :
    ∀ fuel τ, descendAux buf fuel τ = τ + fuel ∨
      optLt (yinNorm buf (descendAux buf fuel τ + 1)) (yinNorm buf (descendAux buf fuel τ))
        = false
  | 0, τ => Or.inl rfl
  | fuel + 1, τ => by
    by_cases hc : optLt (yinNorm buf (τ + 1)) (yinNorm buf τ) = true
    · rw [show descendAux buf (fuel + 1) τ = descendAux buf fuel (τ + 1) by
        simp [descendAux, hc]]
      rcases descendAux_stop buf fuel (τ + 1) with h | h
      · exact Or.inl (by omega)
      · exact Or.inr h
    · rw [show descendAux buf (fuel + 1) τ = τ by simp [descendAux, hc]]
      exact Or.inr (Bool.eq_false_iff.mpr hc)

/-! ### Facts about the threshold scan (lines 296-305) -/

theorem findDipAux_eq_none_iff (buf : List ℚ) (tm : ℕ) :
    ∀ fuel τ, findDipAux buf tm fuel τ = none ↔
      ∀ j, τ ≤ j → j < τ + fuel → belowB buf j = false
  | 0, τ => by
    constructor
    · intro _ j h1 h2
      omega
    · intro _
      rfl
  | fuel + 1, τ => by
    by_cases hb : belowB buf τ = true
    · rw [show findDipAux buf tm (fuel + 1) τ
          = some (descendAux buf (tm - (τ + 1)) τ) by simp [findDipAux, hb]]
      constructor
      · intro h
        exact absurd h (by simp)
      · intro h
        exact absurd (h τ (le_refl τ) (by omega)) (by simp [hb])
    · have hb' : belowB buf τ = false := Bool.eq_false_iff.mpr hb
      rw [show findDipAux buf tm (fuel + 1) τ = findDipAux buf tm fuel (τ + 1) by
        simp [findDipAux, hb']]
      rw [findDipAux_eq_none_iff buf tm fuel (τ + 1)]
      constructor
      · intro h j h1 h2
        rcases Nat.eq_or_lt_of_le h1 with rfl | hlt
        · exact hb'
        · exact h j hlt (by omega)
      · intro h j h1 h2
        exact h j (by omega) (by omega)

theorem findDipAux_eq_some (buf : List ℚ) (tm : ℕ) :
    ∀ fuel τ τ', findDipAux buf tm fuel τ = some τ' →
      ∃ τ0, τ ≤ τ0 ∧ τ0 < τ + fuel ∧ belowB buf τ0 = true ∧
        (∀ j, τ ≤ j → j < τ0 → belowB buf j = false) ∧
        τ' = descendAux buf (tm - (τ0 + 1)) τ0
  | 0, τ, τ', h => absurd h (by simp [findDipAux])
  | fuel + 1, τ, τ', h => by
    by_cases hb : belowB buf τ = true
    · rw [show findDipAux buf tm (fuel + 1) τ
          = some (descendAux buf (tm - (τ + 1)) τ) by simp [findDipAux, hb]] at h
      exact ⟨τ, le_refl τ, by omega, hb, fun j h1 h2 => by omega,
        (Option.some_inj.mp h).symm⟩
    · have hb' : belowB buf τ = false := Bool.eq_false_iff.mpr hb
      rw [show findDipAux buf tm (fuel + 1) τ = findDipAux buf tm fuel (τ + 1) by
        simp [findDipAux, hb']] at h
      rcases findDipAux_eq_some buf tm fuel (τ + 1) τ' h with
        ⟨τ0, h1, h2, h3, h4, h5⟩
      refine ⟨τ0, by omega, by omega, h3, ?_, h5⟩
      intro j hj1 hj2
      rcases Nat.eq_or_lt_of_le hj1 with rfl | hlt
      · exact hb'
      · exact h4 j hlt hj2

theorem findDipAux_first (buf : List ℚ) (tm : ℕ) :
    ∀ fuel τ τ0, τ ≤ τ0 → τ0 < τ + fuel → belowB buf τ0 = true →
      (∀ j, τ ≤ j → j < τ0 → belowB buf j = false) →
      findDipAux buf tm fuel τ = some (descendAux buf (tm - (τ0 + 1)) τ0)
  | 0, τ, τ0, h1, h2, _, _ => by omega
  | fuel + 1, τ, τ0, h1, h2, h3, h4 => by
    rcases Nat.eq_or_lt_of_le h1 with rfl | hlt
    · rw [show findDipAux buf tm (fuel + 1) τ
          = some (descendAux buf (tm - (τ + 1)) τ) by simp [findDipAux, h3]]
    · have hb' : belowB buf τ = false := h4 τ (le_refl τ) hlt
      rw [show findDipAux buf tm (fuel + 1) τ = findDipAux buf tm fuel (τ + 1) by
        simp [findDipAux, hb']]
      exact findDipAux_first buf tm fuel (τ + 1) τ0 hlt (by omega) h3
        (fun j hj1 hj2 => h4 j (by omega) hj2)

/-- Structure of a successful threshold search: the selected lag lies in
`[2, tauMax)`, its normalized value is a genuine value below `0.15`, the
previous entry is a genuine value strictly above it, and either the lag is
the last one (`τ + 1 = tauMax`) or the next entry is a genuine value that
is not strictly smaller (the descent stopped). -/
theorem yin_found (buf : List ℚ) (τ' : ℕ) (h : yinTauEstimate buf = some τ') :
    2 ≤ τ' ∧ τ' < tauMax buf ∧
      ∃ v u, yinNorm buf τ' = some v ∧ v < (0.15 : ℚ) ∧
        yinNorm buf (τ' - 1) = some u ∧ v < u ∧
        (τ' + 1 = tauMax buf ∨ ∃ w, yinNorm buf (τ' + 1) = some w ∧ v ≤ w) := by
  unfold yinTauEstimate at h
  rcases findDipAux_eq_some buf (tauMax buf) (tauMax buf - 2) 2 τ' h with
    ⟨τ0, h1, h2, h3, h4, h5⟩
  have htm : 3 ≤ tauMax buf := by omega
  have hτ0 : τ0 < tauMax buf := by omega
  have hfirst : τ0 = 2 ∨ belowB buf (τ0 - 1) = false := by
    rcases Nat.eq_or_lt_of_le h1 with rfl | hlt
    · exact Or.inl rfl
    · exact Or.inr (h4 (τ0 - 1) (by omega) (by omega))
  have hinv0 : DipInv buf τ0 :=
    ⟨h1, prev_gt_of_first buf h1 h3 hfirst⟩
  have hinv : DipInv buf τ' := h5 ▸ descendAux_dipInv buf (tauMax buf - (τ0 + 1)) τ0 hinv0
  rcases hinv with ⟨hτ', v, u, hv, hlt, hu, hvu⟩
  have hle : τ' ≤ tauMax buf - 1 := by
    have := descendAux_le buf (tauMax buf - (τ0 + 1)) τ0
    omega
  refine ⟨hτ', by omega, v, u, hv, hlt, hu, hvu, ?_⟩
  rcases descendAux_stop buf (tauMax buf - (τ0 + 1)) τ0 with hs | hs
  · exact Or.inl (by omega)
  · rw [← h5] at hs
    have hrs : runSum buf (τ' + 1) ≠ 0 := by
      have hpos : 0 < runSum buf τ' := runSum_pos_of_some buf (by omega) hv
      have := runSum_le_succ buf τ'
      exact ne_of_gt (by linarith)
    rcases yinNorm_some_of_ne buf hrs with ⟨w, hw⟩
    refine Or.inr ⟨w, hw, ?_⟩
    by_contra hwv
    exact absurd ((optLt_eq_true_iff _ _).mpr ⟨w, v, hw, hv, not_le.mp hwv⟩)
      (by simp [hs])

/-! ### The parabolic-interpolation step (lines 311-326) -/

/-- With a dip value `v` strictly below the previous value `u` and not above
the next value `w`, the interpolation denominator is strictly negative and
the correction term is at least `-1/2`. -/
theorem interp_den_bound (u v w : ℚ) (h1 : v < u) (h2 : v ≤ w) :
    2 * (2 * v - w - u) < 0 ∧ -(1 / 2 : ℚ) ≤ (w - u) / (2 * (2 * v - w - u)) := by
  have hden : 2 * (2 * v - w - u) < 0 := by linarith
  refine ⟨hden, ?_⟩
  rw [le_div_iff_of_neg hden]
  linarith

/-- Whenever the threshold search selects a lag and the sample rate is
positive, `yinPitch` evaluates the parabolic-interpolation formula on the
three clamped entries, the denominator is nonzero, and the resulting
frequency `sampleRate / betterTau` is strictly positive (so the final
rejection at line 322 does not fire). -/
theorem yinPitch_found (buf : List ℚ) (sr : ℚ) (τ : ℕ) (hsr : 0 < sr)
    (h : yinTauEstimate buf = some τ) :
    ∃ s0 s1 s2,
      yinNorm buf (if τ < 1 then τ else τ - 1) = some s0 ∧
      yinNorm buf τ = some s1 ∧
      yinNorm buf (if τ + 1 < tauMax buf then τ + 1 else τ) = some s2 ∧
      2 * (2 * s1 - s2 - s0) ≠ 0 ∧
      yinPitch buf sr = sr / ((τ : ℚ) + (s2 - s0) / (2 * (2 * s1 - s2 - s0))) ∧
      0 < yinPitch buf sr := by
  rcases yin_found buf τ h with ⟨hτ2, hτtm, v, u, hv, hlt, hu, hvu, hnext⟩
  have hx0 : (if τ < 1 then τ else τ - 1) = τ - 1 := if_neg (by omega)
  by_cases hcase : τ + 1 < tauMax buf
  · have hx2 : (if τ + 1 < tauMax buf then τ + 1 else τ) = τ + 1 := if_pos hcase
    rcases hnext with hb | ⟨w, hw, hvw⟩
    · omega
    · rcases interp_den_bound u v w hvu hvw with ⟨hden, hq⟩
      have hbt : (0 : ℚ) < (τ : ℚ) + (w - u) / (2 * (2 * v - w - u)) := by
        have hτq : (2 : ℚ) ≤ (τ : ℚ) := by exact_mod_cast hτ2
        linarith
      have hfreq : 0 < sr / ((τ : ℚ) + (w - u) / (2 * (2 * v - w - u))) :=
        div_pos hsr hbt
      have heq : yinPitch buf sr
          = sr / ((τ : ℚ) + (w - u) / (2 * (2 * v - w - u))) := by
        unfold yinPitch
        rw [h]
        simp only [hx0, hx2]
        rw [hu, hv, hw]
        simp only [ne_of_lt hden, if_false, not_le.mpr hfreq, if_neg (not_le.mpr hfreq)]
      refine ⟨u, v, w, by rw [hx0]; exact hu, hv, by rw [hx2]; exact hw,
        ne_of_lt hden, heq, by rw [heq]; exact hfreq⟩
  · have hx2 : (if τ + 1 < tauMax buf then τ + 1 else τ) = τ := if_neg hcase
    rcases interp_den_bound u v v hvu (le_refl v) with ⟨hden, hq⟩
    have hbt : (0 : ℚ) < (τ : ℚ) + (v - u) / (2 * (2 * v - v - u)) := by
      have hτq : (2 : ℚ) ≤ (τ : ℚ) := by exact_mod_cast hτ2
      linarith
    have hfreq : 0 < sr / ((τ : ℚ) + (v - u) / (2 * (2 * v - v - u))) :=
      div_pos hsr hbt
    have heq : yinPitch buf sr
        = sr / ((τ : ℚ) + (v - u) / (2 * (2 * v - v - u))) := by
      unfold yinPitch
      rw [h]
      simp only [hx0, hx2]
      rw [hu, hv]
      simp only [ne_of_lt hden, if_false, if_neg (not_le.mpr hfreq)]
    refine ⟨u, v, v, by rw [hx0]; exact hu, hv, by rw [hx2]; exact hv,
      ne_of_lt hden, heq, by rw [heq]; exact hfreq⟩

/-- The difference function as the spec writes it, as a mathematical sum. -/
theorem diffAt_eq_sum (buf : List ℚ) (τ : ℕ) :
    diffAt buf τ = ∑ i ∈ Finset.range (tauMax buf), (buf.getD i 0 - buf.getD (i + τ) 0) ^ 2 :=
  sumTo_eq_sum _ _

/-- The running sum through lag `τ` as the spec writes it. -/
theorem runSum_eq_spec (buf : List ℚ) (τ : ℕ) :
    runSum buf τ =
      ∑ j ∈ Finset.Icc 1 τ, ∑ i ∈ Finset.range (tauMax buf),
        (buf.getD i 0 - buf.getD (i + j) 0) ^ 2 := by
  rw [runSum_eq_sum]
  exact Finset.sum_congr rfl fun j _ => diffAt_eq_sum buf j

/-- A fixed example block: a period-2 alternating signal of length 8.
Its difference function is `16, 0, 16` for lags `1, 2, 3`, the normalized
buffer is `1, 0, 3/2`, the dip is found at lag 2, and
`yinPitch` with sample rate 19 returns `19 / (19/10) = 10`. -/
def exBuf : List ℚ := [1, -1, 1, -1, 1, -1, 1, -1]

/-! ### Claim theorems about the pitch estimator -/

/-- C1: for every audio block and every sample rate, `yinPitch` returns
either the no-pitch sentinel `-1` or a strictly positive frequency; every
path on which JavaScript would produce a NaN or non-positive frequency
(a NaN normalized value at one of the three interpolation points, a zero
interpolation denominator, or a non-positive quotient) ends in the `-1`
branch, never in a zero, negative, or non-finite return value. -/
theorem yinPitch_no_pitch_or_pos (buf : List ℚ) (sr : ℚ) :
    yinPitch buf sr = -1 ∨ 0 < yinPitch buf sr := by
  unfold yinPitch
  split
  · exact Or.inl rfl
  · split
    all_goals try exact Or.inl rfl
    split_ifs with hden hle
    · exact Or.inl rfl
    · exact Or.inl rfl
    · exact Or.inr (lt_of_not_le hle)

/-- C3: with a positive sample rate, `yinPitch` returns the no-pitch
sentinel iff no lag `τ` in `[2, tauMax)` has a (non-NaN) normalized value
strictly below `0.15`; and when a first below-threshold lag `τ0` exists,
the selected integer lag is `τ0` advanced while the next lag's value is
strictly smaller (the descent to the dip's local minimum). -/
theorem yin_threshold_search (buf : List ℚ) (sr : ℚ) (hsr : 0 < sr) :
    (yinPitch buf sr = -1 ↔
      ∀ τ, 2 ≤ τ → τ < tauMax buf → ¬∃ v, yinNorm buf τ = some v ∧ v < (0.15 : ℚ)) ∧
    (∀ τ0, 2 ≤ τ0 → τ0 < tauMax buf →
      (∃ v, yinNorm buf τ0 = some v ∧ v < (0.15 : ℚ)) →
      (∀ j, 2 ≤ j → j < τ0 → ¬∃ v, yinNorm buf j = some v ∧ v < (0.15 : ℚ)) →
      yinTauEstimate buf = some (descendAux buf (tauMax buf - (τ0 + 1)) τ0)) := by
  constructor
  · constructor
    · intro hp τ hτ2 hτtm
      rw [← belowB_iff]
      rcases hest : yinTauEstimate buf with _ | τ'
      · unfold yinTauEstimate at hest
        rw [findDipAux_eq_none_iff] at hest
        simp [hest τ hτ2 (by omega)]
      · rcases yinPitch_found buf sr τ' hsr hest with ⟨_, _, _, _, _, _, _, _, hpos⟩
        rw [hp] at hpos
        norm_num at hpos
    · intro hall
      have hnone : yinTauEstimate buf = none := by
        unfold yinTauEstimate
        rw [findDipAux_eq_none_iff]
        intro j h1 h2
        rw [belowB_eq_false_iff]
        exact hall j h1 (by omega)
      unfold yinPitch
      rw [hnone]
  · intro τ0 h2 htm hex hfirst
    unfold yinTauEstimate
    exact findDipAux_first buf (tauMax buf) (tauMax buf - 2) 2 τ0 h2 (by omega)
      ((belowB_iff buf τ0).mpr hex)
      (fun j hj1 hj2 => (belowB_eq_false_iff buf j).mpr (hfirst j hj1 hj2))

/-- C3 witness: the example block has its first below-threshold lag at
`τ0 = 2` with value `0`, and `yinPitch` indeed does not return `-1`. -/
theorem yin_threshold_search_witness :
    (0 : ℚ) < 19 ∧
    ((yinPitch exBuf 19 = -1 ↔
      ∀ τ, 2 ≤ τ → τ < tauMax exBuf → ¬∃ v, yinNorm exBuf τ = some v ∧ v < (0.15 : ℚ)) ∧
    (∀ τ0, 2 ≤ τ0 → τ0 < tauMax exBuf →
      (∃ v, yinNorm exBuf τ0 = some v ∧ v < (0.15 : ℚ)) →
      (∀ j, 2 ≤ j → j < τ0 → ¬∃ v, yinNorm exBuf j = some v ∧ v < (0.15 : ℚ)) →
      yinTauEstimate exBuf = some (descendAux exBuf (tauMax exBuf - (τ0 + 1)) τ0))) :=
  ⟨by norm_num, yin_threshold_search exBuf 19 (by norm_num)⟩

/-- C4: the normalized difference buffer matches the reference definition
with raw `D(τ) = Σ_{i < tauMax} (block[i] - block[i+τ])²` and normalized
value `D(τ)·τ / Σ_{j=1..τ} D(j)` (whenever that running sum is nonzero, so
that the formula denotes; a zero running sum gives a NaN entry in the
code); the entry at index 0 is fixed at 1, `tauMax = ⌊len/2⌋`, and index 0
is never selected as a lag. -/
theorem yin_normalization (buf : List ℚ) (τ : ℕ) (h1 : 1 ≤ τ) (h2 : τ < tauMax buf)
    (hne : ∑ j ∈ Finset.Icc 1 τ, ∑ i ∈ Finset.range (tauMax buf),
      (buf.getD i 0 - buf.getD (i + j) 0) ^ 2 ≠ 0) :
    yinNorm buf τ =
      some ((∑ i ∈ Finset.range (tauMax buf), (buf.getD i 0 - buf.getD (i + τ) 0) ^ 2) * τ /
        ∑ j ∈ Finset.Icc 1 τ, ∑ i ∈ Finset.range (tauMax buf),
          (buf.getD i 0 - buf.getD (i + j) 0) ^ 2) ∧
    yinNorm buf 0 = some 1 ∧
    tauMax buf = buf.length / 2 ∧
    (∀ τ', yinTauEstimate buf = some τ' → τ' ≠ 0) := by
  have hrs : runSum buf τ ≠ 0 := by rw [runSum_eq_spec]; exact hne
  refine ⟨?_, yinNorm_zero buf, rfl, ?_⟩
  · rw [yinNorm_of_ne buf (by omega) hrs, diffAt_eq_sum, runSum_eq_spec]
  · intro τ' hτ'
    have := (yin_found buf τ' hτ').1
    omega

/-- C4 witness: the reference formula evaluated on the example block at
lag 2 gives `0 · 2 / 16 = 0`. -/
theorem yin_normalization_witness :
    yinNorm exBuf 2 =
      some ((∑ i ∈ Finset.range (tauMax exBuf), (exBuf.getD i 0 - exBuf.getD (i + 2) 0) ^ 2) * 2 /
        ∑ j ∈ Finset.Icc 1 2, ∑ i ∈ Finset.range (tauMax exBuf),
          (exBuf.getD i 0 - exBuf.getD (i + j) 0) ^ 2) ∧
    yinNorm exBuf 0 = some 1 ∧
    tauMax exBuf = exBuf.length / 2 ∧
    (∀ τ', yinTauEstimate exBuf = some τ' → τ' ≠ 0) :=
  yin_normalization exBuf 2 (by norm_num) (by norm_num [tauMax, exBuf])
    (by rw [← runSum_eq_spec]; norm_num [runSum, diffAt, sumTo, tauMax, exBuf])

/-- C5: whenever the threshold search yields an integer lag `τ` and the
sample rate is positive, the returned frequency is
`sampleRate / (τ + (d[x2] - d[x0]) / (2·(2·d[τ] - d[x2] - d[x0])))`, with
`x0`, `x2` the neighbours `τ-1`, `τ+1` clamped to the buffer's index range
exactly as in lines 312-313. -/
theorem yin_parabolic_interp (buf : List ℚ) (sr : ℚ) (τ : ℕ) (hsr : 0 < sr)
    (h : yinTauEstimate buf = some τ) :
    ∃ s0 s1 s2,
      yinNorm buf (if τ < 1 then τ else τ - 1) = some s0 ∧
      yinNorm buf τ = some s1 ∧
      yinNorm buf (if τ + 1 < tauMax buf then τ + 1 else τ) = some s2 ∧
      yinPitch buf sr = sr / ((τ : ℚ) + (s2 - s0) / (2 * (2 * s1 - s2 - s0))) := by
  rcases yinPitch_found buf sr τ hsr h with ⟨s0, s1, s2, h0, h1, h2, _, heq, _⟩
  exact ⟨s0, s1, s2, h0, h1, h2, heq⟩

/-- C5 witness: on the example block the selected lag is 2, the three
interpolation points are `d[1] = 1`, `d[2] = 0`, `d[3] = 3/2`, and the
returned frequency is `19 / (2 + (3/2 - 1)/(2·(0 - 3/2 - 1))) = 10`. -/
theorem yin_parabolic_interp_witness :
    ∃ s0 s1 s2,
      yinNorm exBuf (if 2 < 1 then 2 else 2 - 1) = some s0 ∧
      yinNorm exBuf 2 = some s1 ∧
      yinNorm exBuf (if 2 + 1 < tauMax exBuf then 2 + 1 else 2) = some s2 ∧
      yinPitch exBuf 19 = 19 / ((2 : ℚ) + (s2 - s0) / (2 * (2 * s1 - s2 - s0))) := by
  have := yin_parabolic_interp exBuf 19 2 (by norm_num)
    (by norm_num [yinTauEstimate, findDipAux, belowB, yinNorm, runSum, diffAt,
      sumTo, tauMax, descendAux, optLt, exBuf])
  exact_mod_cast this

/-! ### The signal gate (tuner.js lines 67-78, 188-199, 258-265) -/

/-- Lines 259-263: the loop `sum += v * v` over the whole block. -/
def sumSq (buf : List ℚ) : ℚ := sumTo (fun i => buf.getD i 0 ^ 2) buf.length

/-- Lines 258-265, `computeRMS`: `Math.sqrt(sum / buf.length)`.  For an
empty block JavaScript computes `Math.sqrt(0 / 0) = Math.sqrt(NaN) = NaN`,
modelled as `none`. -/
noncomputable def computeRMS (buf : List ℚ) : Option ℝ :=
  if buf.length = 0 then none
  else some (Real.sqrt ((sumSq buf : ℝ) / (buf.length : ℝ)))

/-- Lines 67-78, `getRmsThreshold`: linear interpolation between a maximum
threshold `0.01` (low sensitivity) and a minimum threshold `0.0005` (high
sensitivity), driven by the sensitivity value `s`. -/
def getRmsThreshold (s : ℚ) : ℚ :=
  let minThresh : ℚ := 0.0005
  let maxThresh : ℚ := 0.01
  let t := s / 100
  maxThresh - t * (maxThresh - minThresh)

/-- Line 197's test `rms > rmsThreshold`; false when the RMS is NaN, as a
JavaScript comparison with NaN is. -/
def gatePasses (rms : Option ℝ) (threshold : ℝ) : Prop :=
  match rms with
  | some r => threshold < r
  | none => False

/-- The gate of the per-block handler (lines 188-199): `yinPitch` is
invoked exactly when `computeRMS inputData > getRmsThreshold()`. -/
def shouldAnalyze (buf : List ℚ) (s : ℚ) : Prop :=
  gatePasses (computeRMS buf) ((getRmsThreshold s : ℚ) : ℝ)

/-- For every sensitivity in `[1, 100]` the threshold is strictly
positive. -/
theorem getRmsThreshold_pos {s : ℚ} (h1 : 1 ≤ s) (h2 : s ≤ 100) :
    0 < getRmsThreshold s := by
  unfold getRmsThreshold
  norm_num
  nlinarith

theorem sumSq_nonneg (buf : List ℚ) : 0 ≤ sumSq buf :=
  sumTo_nonneg _ (fun i => sq_nonneg _) _

theorem getD_replicate_zero (m k : ℕ) : (List.replicate m (0 : ℚ)).getD k 0 = 0 := by
  induction m generalizing k with
  | zero => rfl
  | succ m ih =>
    cases k with
    | zero => rfl
    | succ k => exact ih k

theorem sumTo_replicate_zero_sq (m : ℕ) :
    ∀ n, sumTo (fun i => (List.replicate m (0 : ℚ)).getD i 0 ^ 2) n = 0
  | 0 => rfl
  | n + 1 => by
    rw [sumTo, sumTo_replicate_zero_sq m n, getD_replicate_zero]
    norm_num

/-- C2: pitch estimation is attempted iff the block's RMS — the square
root of the mean of the squared samples over the full block — strictly
exceeds the threshold, and for every sensitivity `s ∈ [1, 100]` the
threshold equals `0.01 - (s/100)·(0.01 - 0.0005)`.  (For the empty block
the code's RMS is NaN and the gate fails; the reference RMS expression is
then `√(0/0) = 0`, which also fails against the positive threshold, so the
equivalence is unconditional.) -/
theorem rms_gate_spec (buf : List ℚ) (s : ℚ) (h1 : 1 ≤ s) (h2 : s ≤ 100) :
    (shouldAnalyze buf s ↔
      Real.sqrt ((sumSq buf : ℝ) / (buf.length : ℝ)) > ((getRmsThreshold s : ℚ) : ℝ)) ∧
    getRmsThreshold s = 0.01 - s / 100 * (0.01 - 0.0005) := by
  constructor
  · unfold shouldAnalyze computeRMS gatePasses
    by_cases h0 : buf.length = 0
    · simp only [h0, if_true]
      have hq : ((sumSq buf : ℝ) / ((0 : ℕ) : ℝ)) = 0 := by
        norm_num
      rw [hq, Real.sqrt_zero]
      have hpos : (0 : ℝ) < ((getRmsThreshold s : ℚ) : ℝ) := by
        exact_mod_cast getRmsThreshold_pos h1 h2
      constructor
      · intro hfalse
        exact absurd hfalse (by simp)
      · intro hgt
        exact absurd hgt (by push_neg; linarith)
    · simp only [h0, if_false]
  · unfold getRmsThreshold
    norm_num

/-- C2 witness: sensitivity 70 on the empty block. -/
theorem rms_gate_spec_witness :
    (1 : ℚ) ≤ 70 ∧ (70 : ℚ) ≤ 100 ∧
    ((shouldAnalyze [] 70 ↔
      Real.sqrt ((sumSq [] : ℝ) / (([] : List ℚ).length : ℝ)) > ((getRmsThreshold 70 : ℚ) : ℝ)) ∧
    getRmsThreshold 70 = 0.01 - 70 / 100 * (0.01 - 0.0005)) :=
  ⟨by norm_num, by norm_num, rms_gate_spec [] 70 (by norm_num) (by norm_num)⟩

/-- C9 counterexample: on the empty block the code's RMS is `NaN`
(modelled `none`), not exactly `0` as the claim states. -/
theorem computeRMS_empty_not_zero :
    computeRMS ([] : List ℚ) = none ∧ computeRMS ([] : List ℚ) ≠ some 0 := by
  constructor
  · rfl
  · intro h
    exact absurd h (by simp [computeRMS])

/-- C9 (amended): for an all-zero block the RMS is exactly `0` when the
block is nonempty and NaN (`none`) when it is empty; in either case the
gate fails for every strictly positive threshold. -/
theorem rms_zero_block (n : ℕ) :
    computeRMS (List.replicate n 0) = (if n = 0 then none else some 0) ∧
    ∀ t : ℝ, 0 < t → ¬gatePasses (computeRMS (List.replicate n 0)) t := by
  have hsum : sumSq (List.replicate n (0 : ℚ)) = 0 := by
    unfold sumSq
    exact sumTo_replicate_zero_sq n _
  have hrms : computeRMS (List.replicate n 0) = (if n = 0 then none else some 0) := by
    unfold computeRMS
    rcases Nat.eq_zero_or_pos n with rfl | hn
    · simp
    · rw [List.length_replicate, if_neg (by omega), if_neg (by omega), hsum]
      norm_num
  refine ⟨hrms, fun t ht => ?_⟩
  rw [hrms]
  rcases Nat.eq_zero_or_pos n with rfl | hn
  · simp [gatePasses]
  · rw [if_neg (by omega)]
    unfold gatePasses
    simp only
    linarith

/-- C9 witness: the amended statement applied at block length 5. -/
theorem rms_zero_block_witness :
    computeRMS (List.replicate 5 0) = (if 5 = 0 then none else some 0) ∧
    ∀ t : ℝ, 0 < t → ¬gatePasses (computeRMS (List.replicate 5 0)) t :=
  rms_zero_block 5

/-! ### The note mapper (tuner.js lines 110-112, 124-126, 332-359) -/

/-- Line 110. -/
def MIN_FREQUENCY : ℝ := 27.5

/-- Line 111. -/
def MAX_FREQUENCY : ℝ := 4186

/-- Line 125. -/
def MIN_MIDI_PIANO : ℤ := 21

/-- Line 126. -/
def MAX_MIDI_PIANO : ℤ := 108

/-- Line 334: `noteNumber = 12 * (Math.log(freq / A4) / Math.log(2)) + 69`
with `A4 = 440`. -/
noncomputable def noteNumber (f : ℝ) : ℝ :=
  12 * (Real.log (f / 440) / Real.log 2) + 69

/-- Line 335: `nearestNote = Math.round(noteNumber)`.  `Math.round` sends
a half to the integer above (toward `+∞`), exactly as Mathlib's `round`
(`round x = ⌊x + 1/2⌋`). -/
noncomputable def nearestNote (f : ℝ) : ℤ := round (noteNumber f)

/-- Line 337: `targetFreq = A4 * Math.pow(2, (nearestNote - 69) / 12)`. -/
noncomputable def targetFreq (f : ℝ) : ℝ :=
  440 * (2 : ℝ) ^ (((nearestNote f : ℝ) - 69) / 12)

/-- Line 338: `cents = (1200 * Math.log(freq / targetFreq)) / Math.log(2)`. -/
noncomputable def cents (f : ℝ) : ℝ :=
  1200 * Real.log (f / targetFreq f) / Real.log 2

/-- Lines 343-346: the piano key, `nearestNote - 20` when the nearest MIDI
note is within the 88-key range `[21, 108]`, absent (`null`) otherwise. -/
noncomputable def keyNumber (f : ℝ) : Option ℤ :=
  if MIN_MIDI_PIANO ≤ nearestNote f ∧ nearestNote f ≤ MAX_MIDI_PIANO then
    some (nearestNote f - (MIN_MIDI_PIANO - 1))
  else none

/-- Lines 352-355. -/
def noteNames : List String :=
  ["C", "C♯", "D", "D♯", "E", "F", "F♯", "G", "G♯", "A", "A♯", "B"]

/-- Lines 351-359, `midiNoteToName`.  JavaScript `%` truncates toward zero
(`Int.tmod`) and `Math.floor(midi / 12)` is floor division (`Int.fdiv`);
for a negative remainder the table lookup is `undefined`, modelled as
`none`. -/
def midiNoteToName (m : ℤ) : Option String :=
  if 0 ≤ Int.tmod m 12 then
    (noteNames.get? (Int.tmod m 12).toNat).map
      (fun s => s ++ toString (Int.fdiv m 12 - 1))
  else none

/-- Lines 332-349, `getNoteInfo`, assembling the returned record. -/
noncomputable def getNoteInfo (f : ℝ) :
    Option String × ℝ × ℝ × Option ℤ :=
  (midiNoteToName (nearestNote f), targetFreq f, cents f, keyNumber f)

/-! ### Key identities of the note mapper -/

theorem log_two_pos : (0 : ℝ) < Real.log 2 :=
  Real.log_pos (by norm_num)

theorem targetFreq_pos (f : ℝ) : 0 < targetFreq f :=
  mul_pos (by norm_num) (Real.rpow_pos_of_pos (by norm_num) _)

/-- The cents deviation is `100` times the distance from the fractional
note number to the selected integer note. -/
theorem cents_eq (f : ℝ) (hf : 0 < f) :
    cents f = 100 * (noteNumber f - (nearestNote f : ℝ)) := by
  have h2 : (0 : ℝ) < 2 := by norm_num
  have hlog2 : Real.log 2 ≠ 0 := ne_of_gt log_two_pos
  have htf : (0 : ℝ) < targetFreq f := targetFreq_pos f
  have hstep : Real.log (f / targetFreq f)
      = Real.log f - Real.log 440 - ((nearestNote f : ℝ) - 69) / 12 * Real.log 2 := by
    rw [Real.log_div (ne_of_gt hf) (ne_of_gt htf)]
    unfold targetFreq
    rw [Real.log_mul (by norm_num) (ne_of_gt (Real.rpow_pos_of_pos h2 _)),
      Real.log_rpow h2]
    ring
  have hnn : Real.log (f / 440) = Real.log f - Real.log 440 :=
    Real.log_div (ne_of_gt hf) (by norm_num)
  unfold cents noteNumber
  rw [hstep, hnn]
  field_simp
  ring

/-- Feeding the target frequency back in recovers the note number
exactly: `noteNumber (targetFreq f) = nearestNote f`. -/
theorem noteNumber_targetFreq (f : ℝ) :
    noteNumber (targetFreq f) = (nearestNote f : ℝ) := by
  have h2 : (0 : ℝ) < 2 := by norm_num
  have hlog2 : Real.log 2 ≠ 0 := ne_of_gt log_two_pos
  unfold noteNumber targetFreq
  rw [show (440 : ℝ) * (2 : ℝ) ^ (((nearestNote f : ℝ) - 69) / 12) / 440
      = (2 : ℝ) ^ (((nearestNote f : ℝ) - 69) / 12) by ring,
    Real.log_rpow h2]
  field_simp
  ring

theorem nearestNote_targetFreq (f : ℝ) :
    nearestNote (targetFreq f) = nearestNote f := by
  unfold nearestNote
  rw [noteNumber_targetFreq]
  exact round_intCast _

/-- Bounds on the distance to the rounded value: `Math.round` (toward
`+∞` at halves) satisfies `x - round x ∈ [-1/2, 1/2)`. -/
theorem sub_round_bounds (x : ℝ) :
    -(1 / 2) ≤ x - (round x : ℝ) ∧ x - (round x : ℝ) < 1 / 2 := by
  rw [round_eq]
  have h1 : ((⌊x + 1 / 2⌋ : ℤ) : ℝ) ≤ x + 1 / 2 := Int.floor_le _
  have h2 : x + 1 / 2 < (⌊x + 1 / 2⌋ : ℤ) + 1 := Int.lt_floor_add_one _
  constructor <;> [linarith; linarith]

/-! ### Claim theorems about the note mapper -/

/-- C6 counterexample: at the exactly-halfway frequency `440·2^(1/24)`
(the quarter-tone above A4), `Math.round` sends the note number `69.5` up
to `70`, and the cents deviation is exactly `-50`, which is not in the
claimed interval `(-50, 50]`. -/
theorem cents_halfway_cex :
    cents (440 * (2 : ℝ) ^ ((1 : ℝ) / 24)) = -50 ∧
    ¬(-50 < cents (440 * (2 : ℝ) ^ ((1 : ℝ) / 24)) ∧
      cents (440 * (2 : ℝ) ^ ((1 : ℝ) / 24)) ≤ 50) := by
  have h2 : (0 : ℝ) < 2 := by norm_num
  have hlog2 : Real.log 2 ≠ 0 := ne_of_gt log_two_pos
  have hf0 : (0 : ℝ) < 440 * (2 : ℝ) ^ ((1 : ℝ) / 24) :=
    mul_pos (by norm_num) (Real.rpow_pos_of_pos h2 _)
  have harg : 440 * (2 : ℝ) ^ ((1 : ℝ) / 24) / 440 = (2 : ℝ) ^ ((1 : ℝ) / 24) := by
    field_simp
  have hnn : noteNumber (440 * (2 : ℝ) ^ ((1 : ℝ) / 24)) = 139 / 2 := by
    unfold noteNumber
    rw [harg, Real.log_rpow h2]
    field_simp
    ring
  have hround : nearestNote (440 * (2 : ℝ) ^ ((1 : ℝ) / 24)) = 70 := by
    unfold nearestNote
    rw [hnn, round_eq, show (139 / 2 : ℝ) + 1 / 2 = ((70 : ℤ) : ℝ) by norm_num]
    exact Int.floor_intCast 70
  have hc : cents (440 * (2 : ℝ) ^ ((1 : ℝ) / 24)) = -50 := by
    rw [cents_eq _ hf0, hnn, hround]
    norm_num
  exact ⟨hc, by rw [hc]; norm_num⟩

/-- C6 (amended): for every positive frequency the cents deviation lies in
the half-open interval `[-50, 50)` — the lower endpoint is attained at
exactly-halfway frequencies because `Math.round` sends halves up, and `50`
is never attained. -/
theorem cents_in_range (f : ℝ) (hf : 0 < f) :
    -50 ≤ cents f ∧ cents f < 50 := by
  rcases sub_round_bounds (noteNumber f) with ⟨h1, h2⟩
  rw [cents_eq f hf]
  unfold nearestNote
  constructor <;> linarith

/-- C6 witness: A4 at 440 Hz has a cents deviation in `[-50, 50)`. -/
theorem cents_in_range_witness :
    (0 : ℝ) < 440 ∧ (-50 ≤ cents 440 ∧ cents 440 < 50) :=
  ⟨by norm_num, cents_in_range 440 (by norm_num)⟩

/-- C7: the piano key is present iff the nearest MIDI note lies in
`[21, 108]`; when present it equals `nearestNote - 20` and lies in
`[1, 88]`; and for 20000 Hz (nearest MIDI note 135) it is absent. -/
theorem pianoKey_spec :
    (∀ f : ℝ, (keyNumber f).isSome = true ↔
      MIN_MIDI_PIANO ≤ nearestNote f ∧ nearestNote f ≤ MAX_MIDI_PIANO) ∧
    (∀ f : ℝ, ∀ k : ℤ, keyNumber f = some k →
      k = nearestNote f - 20 ∧ 1 ≤ k ∧ k ≤ 88) ∧
    keyNumber 20000 = none := by
  refine ⟨fun f => ?_, fun f k hk => ?_, ?_⟩
  · unfold keyNumber
    split_ifs with h
    · simp [h]
    · simp [h]
  · unfold keyNumber at hk
    split_ifs at hk with h
    · have hke := Option.some_inj.mp hk
      unfold MIN_MIDI_PIANO MAX_MIDI_PIANO at h
      unfold MIN_MIDI_PIANO at hke
      omega
  · have hgt : (108 : ℤ) < nearestNote 20000 := by
      have hkey : (10 / 3 : ℝ) ≤ Real.log (500 / 11) / Real.log 2 := by
        rw [le_div_iff log_two_pos]
        have hlog : Real.log ((2 : ℝ) ^ (10 : ℕ)) ≤ Real.log ((500 / 11 : ℝ) ^ (3 : ℕ)) :=
          (Real.log_le_log_iff (by positivity) (by positivity)).mpr (by norm_num)
        rw [Real.log_pow, Real.log_pow] at hlog
        push_cast at hlog
        linarith
      have hnn : (109 : ℝ) ≤ noteNumber 20000 := by
        unfold noteNumber
        rw [show (20000 : ℝ) / 440 = 500 / 11 by norm_num]
        nlinarith [hkey]
      have hfl : (109 : ℤ) ≤ nearestNote 20000 := by
        unfold nearestNote
        rw [round_eq]
        exact Int.le_floor.mpr (by push_cast; linarith)
      omega
    unfold keyNumber
    rw [if_neg]
    intro h
    unfold MAX_MIDI_PIANO at h
    omega

/-- C7 witness: the 20000 Hz case of the claim, read off the theorem. -/
theorem pianoKey_spec_witness : keyNumber 20000 = none :=
  pianoKey_spec.2.2

/-- C8: round-trip stability — mapping the target frequency returned by the
note mapper yields the same nearest MIDI note, hence the same note name and
piano key, with a cents deviation of exactly 0. -/
theorem note_roundtrip (f : ℝ) (hf : 0 < f) :
    nearestNote (targetFreq f) = nearestNote f ∧
    midiNoteToName (nearestNote (targetFreq f)) = midiNoteToName (nearestNote f) ∧
    keyNumber (targetFreq f) = keyNumber f ∧
    cents (targetFreq f) = 0 := by
  have hmidi := nearestNote_targetFreq f
  refine ⟨hmidi, by rw [hmidi], ?_, ?_⟩
  · unfold keyNumber
    rw [hmidi]
  · rw [cents_eq _ (targetFreq_pos f), noteNumber_targetFreq, hmidi]
    ring

/-- C8 witness: the round trip at 440 Hz. -/
theorem note_roundtrip_witness :
    nearestNote (targetFreq 440) = nearestNote 440 ∧
    midiNoteToName (nearestNote (targetFreq 440)) = midiNoteToName (nearestNote 440) ∧
    keyNumber (targetFreq 440) = keyNumber 440 ∧
    cents (targetFreq 440) = 0 :=
  note_roundtrip 440 (by norm_num)

/-- C10 (implicit): for every frequency in the caller-side filter range
`[27.5, 4186]` the nearest MIDI note lies in `[21, 108]`, so the piano key
is always present and the "outside the 88-key piano range" branch of the
per-block handler is unreachable after the range filter passes. -/
theorem piano_range_key_present (f : ℝ) (h1 : MIN_FREQUENCY ≤ f) (h2 : f ≤ MAX_FREQUENCY) :
    (MIN_MIDI_PIANO ≤ nearestNote f ∧ nearestNote f ≤ MAX_MIDI_PIANO) ∧
    (keyNumber f).isSome = true := by
  unfold MIN_FREQUENCY at h1
  unfold MAX_FREQUENCY at h2
  have hfpos : (0 : ℝ) < f := by linarith
  have hlow : (21 : ℝ) ≤ noteNumber f := by
    have hmono : Real.log ((1 / 16 : ℝ)) ≤ Real.log (f / 440) := by
      apply (Real.log_le_log_iff (by norm_num) (by positivity)).mpr
      rw [div_le_div_iff (by norm_num) (by norm_num)]
      linarith
    have hval : Real.log ((1 / 16 : ℝ)) = -(4 * Real.log 2) := by
      rw [show (1 / 16 : ℝ) = ((2 : ℝ) ^ (4 : ℕ))⁻¹ by norm_num, Real.log_inv,
        Real.log_pow]
      push_cast
      ring
    have hdiv : (-4 : ℝ) ≤ Real.log (f / 440) / Real.log 2 := by
      rw [le_div_iff log_two_pos]
      rw [hval] at hmono
      linarith
    unfold noteNumber
    linarith
  have hhigh : noteNumber f < 217 / 2 := by
    have hmono : Real.log (f / 440) ≤ Real.log ((2093 / 220 : ℝ)) := by
      apply (Real.log_le_log_iff (by positivity) (by norm_num)).mpr
      rw [div_le_div_iff (by norm_num) (by norm_num)]
      linarith
    have hkey : Real.log ((2093 / 220 : ℝ)) < 79 / 24 * Real.log 2 := by
      have hlog : Real.log ((2093 / 220 : ℝ) ^ (24 : ℕ)) < Real.log ((2 : ℝ) ^ (79 : ℕ)) :=
        (Real.log_lt_log_iff (by positivity) (by positivity)).mpr (by norm_num)
      rw [Real.log_pow, Real.log_pow] at hlog
      push_cast at hlog
      linarith
    have hdiv : Real.log (f / 440) / Real.log 2 < 79 / 24 := by
      rw [div_lt_iff log_two_pos]
      linarith
    unfold noteNumber
    linarith
  have hm1 : (21 : ℤ) ≤ nearestNote f := by
    unfold nearestNote
    rw [round_eq]
    exact Int.le_floor.mpr (by push_cast; linarith)
  have hm2 : nearestNote f ≤ 108 := by
    unfold nearestNote
    rw [round_eq]
    have : ⌊noteNumber f + 1 / 2⌋ < 109 := Int.floor_lt.mpr (by push_cast; linarith)
    omega
  have hrange : MIN_MIDI_PIANO ≤ nearestNote f ∧ nearestNote f ≤ MAX_MIDI_PIANO := by
    unfold MIN_MIDI_PIANO MAX_MIDI_PIANO
    exact ⟨hm1, hm2⟩
  refine ⟨hrange, ?_⟩
  unfold keyNumber
  rw [if_pos hrange]
  rfl

/-- C10 witness: 440 Hz is within the filter range and maps to MIDI 69,
piano key 49. -/
theorem piano_range_key_present_witness :
    MIN_FREQUENCY ≤ (440 : ℝ) ∧ (440 : ℝ) ≤ MAX_FREQUENCY ∧
    ((MIN_MIDI_PIANO ≤ nearestNote 440 ∧ nearestNote 440 ≤ MAX_MIDI_PIANO) ∧
      (keyNumber 440).isSome = true) :=
  ⟨by norm_num [MIN_FREQUENCY], by norm_num [MAX_FREQUENCY],
    piano_range_key_present 440 (by norm_num [MIN_FREQUENCY]) (by norm_num [MAX_FREQUENCY])⟩

end Tuner
